import Mathlib

/-!
Shallow embedding of the rfc39 maintainer-team synchronisation tool
(src/maintainers.rs, src/op_sync_team.rs, src/maintainerhistory.rs,
src/invited.rs), together with proofs about the embedded definitions.
-/

namespace Rfc39

/-- Embeds `GitHubID` (maintainers.rs): a newtype over `u64`. -/
structure GitHubID where
  val : Nat
deriving DecidableEq, Repr

/-- Embeds `GitHubName` (maintainers.rs): a newtype over `String`.
Structural equality is NOT the Rust `PartialEq`; the Rust comparison is
the case-insensitive `ghNameEq` below. -/
structure GitHubName where
  val : String
deriving DecidableEq, Repr

/-- Embeds `Handle` (maintainers.rs): a newtype over `String`. -/
structure Handle where
  val : String
deriving DecidableEq, Repr

/-- Embeds `impl PartialEq for GitHubName` (maintainers.rs lines 37-41):
`self.0.to_lowercase() == other.0.to_lowercase()`, i.e. case-insensitive
equality, modelled by comparing the per-character lowercasings of the two
names. -/
def ghNameEq (a b : GitHubName) : Bool :=
  a.val.data.map Char.toLower == b.val.data.map Char.toLower

/-- Embeds `Information` (maintainers.rs lines 64-71). -/
structure Information where
  email : String
  name : Option String
  github : Option GitHubName
  github_id : Option GitHubID
deriving DecidableEq, Repr

/-- Embeds `MaintainerList` (maintainers.rs): a map from `Handle` to
`Information`, modelled as an association list (one arbitrary iteration
order of the Rust `HashMap`). -/
def MaintainerList := List (Handle × Information)

/-- Embeds `TeamAction` (op_sync_team.rs lines 372-377). -/
inductive TeamAction
  | add : GitHubName → GitHubID → Handle → TeamAction
  | remove : GitHubName → GitHubID → TeamAction
  | keep : Handle → TeamAction
deriving DecidableEq, Repr

/-- Key-membership test for an association list keyed by `GitHubID`,
modelling `HashMap::contains_key`. -/
def containsKey {α : Type} (l : List (GitHubID × α)) (k : GitHubID) : Bool :=
  l.any (fun p => p.1 == k)

/-- Key lookup in an association list keyed by `GitHubID`, modelling
`HashMap::get`. -/
def lookupA {α : Type} (l : List (GitHubID × α)) (k : GitHubID) : Option α :=
  (l.find? (fun p => p.1 == k)).map Prod.snd

/-- Insert-or-overwrite for an association list keyed by `GitHubID`,
modelling `HashMap::insert` / collecting an iterator into a `HashMap`
(a later entry for the same key overwrites the earlier one). -/
def upsert {α : Type} (l : List (GitHubID × α)) (k : GitHubID) (v : α) :
    List (GitHubID × α) :=
  if containsKey l k then
    l.map (fun p => if p.1 == k then (k, v) else p)
  else
    l ++ [(k, v)]

/-- Embeds the `filter_map` closure of `maintainer_team_diff`
(op_sync_team.rs lines 404-413): a maintainer record yields no entry when
`github_id` is absent; when the id is a current team member it yields
`Keep(handle)`; otherwise it yields `Add(github, github_id, handle)`,
which additionally requires the `github` name to be present (the `?` on
`m.github`). -/
def diffEntry (teammembers : List (GitHubID × GitHubName))
    (handle : Handle) (m : Information) : Option (GitHubID × TeamAction) :=
  match m.github_id with
  | none => none
  | some gid =>
    if containsKey teammembers gid then
      some (gid, TeamAction.keep handle)
    else
      match m.github with
      | none => none
      | some gname => some (gid, TeamAction.add gname gid handle)

/-- Embeds `maintainer_team_diff` (op_sync_team.rs lines 379-428):
collect the per-maintainer entries into a map keyed by id, then insert a
`Remove` for every current team member whose id is not already present. -/
def maintainer_team_diff (maintainers : MaintainerList)
    (teammembers : List (GitHubID × GitHubName)) :
    List (GitHubID × TeamAction) :=
  let phase1 := maintainers.foldl
    (fun acc hm =>
      match diffEntry teammembers hm.1 hm.2 with
      | some kv => upsert acc kv.1 kv.2
      | none => acc) []
  teammembers.foldl
    (fun acc gm =>
      if containsKey acc gm.1 then acc
      else acc ++ [(gm.1, TeamAction.remove gm.2 gm.1)]) phase1

/-- Spec-side characterisation used to state the amended diff-completeness
claim: a desired record contributes an action for id `gid` exactly when its
`github_id` is `gid` and either `gid` is a current member (Keep needs no
name) or the record also carries a GitHub name (Add needs one). -/
def desiredContributes (teammembers : List (GitHubID × GitHubName))
    (hm : Handle × Information) (gid : GitHubID) : Bool :=
  hm.2.github_id == some gid &&
    (containsKey teammembers gid || hm.2.github.isSome)

/-- Environment of external directory (GitHub) behaviour observed by one
`sync_team` run: the pending-invitation snapshot (op_sync_team.rs lines
156-167) and the responses of the user-lookup, add-member and
remove-member endpoints. `lookupUser none` models a failed fetch;
`addUser`/`removeUser` return whether the call succeeded. -/
structure DirectoryEnv where
  pending : List GitHubName
  lookupUser : GitHubName → Option GitHubID
  addUser : GitHubName → Bool
  removeUser : GitHubName → Bool

/-- State threaded through the `sync_team` action loop: the in-memory
Invitation Ledger (`invited`, a set of ids modelled as a duplicate-free
list), the `noops`/`additions`/`removals`/`errors` counters and the
username-id-mismatch gauge (op_sync_team.rs lines 107-111, 187-196), and
the traces of directory calls actually issued. -/
structure SyncState where
  invited : List GitHubID
  noops : Nat
  additions : Nat
  removals : Nat
  errors : Nat
  mismatches : Nat
  lookupCalls : List GitHubName
  addCalls : List GitHubName
  removeCalls : List GitHubName
deriving DecidableEq, Repr

/-- Membership in the in-memory Invitation Ledger, modelling
`HashSet::contains` (invited.rs line 105-107). -/
def invitedContains (l : List GitHubID) (id : GitHubID) : Bool :=
  l.any (fun x => x == id)

/-- Insertion into the in-memory Invitation Ledger, modelling
`HashSet::insert` (invited.rs lines 109-111). -/
def invitedInsert (l : List GitHubID) (id : GitHubID) : List GitHubID :=
  if invitedContains l id then l else l ++ [id]

/-- Deletion from the in-memory Invitation Ledger, modelling
`HashSet::remove` (invited.rs lines 113-115). -/
def invitedDelete (l : List GitHubID) (id : GitHubID) : List GitHubID :=
  l.filter (fun x => !(x == id))

/-- Embeds the body of the `for (github_id, action) in diff` loop of
`sync_team` (op_sync_team.rs lines 213-337), for one action. `dry_run` is
the negation of `do_it_live` (line 117). An `Add` is a counted no-op when
the name has a pending invitation or the id is in the ledger (lines
220-225); otherwise `additions` is incremented (line 227) and, live only,
the name is looked up: a failed lookup counts an error (lines 237-241), a
mismatched id increments the mismatch gauge and aborts (lines 242-250),
and a matching lookup issues the add call, recording the id in the ledger
on success and counting an error on failure (lines 252-276). `Keep` is a
counted no-op (lines 280-287). `Remove` increments `removals` (line 292)
and, live only, performs the same verification before issuing the remove
call, dropping the id from the ledger on success (lines 294-335). -/
def processAction (env : DirectoryEnv) (dry_run : Bool) (st : SyncState) :
    TeamAction → SyncState
  | TeamAction.add github_name github_id _handle =>
    if env.pending.any (fun p => ghNameEq p github_name) then
      { st with noops := st.noops + 1 }
    else if invitedContains st.invited github_id then
      { st with noops := st.noops + 1 }
    else
      let st1 := { st with additions := st.additions + 1 }
      if dry_run then st1
      else
        let st2 := { st1 with lookupCalls := st1.lookupCalls ++ [github_name] }
        match env.lookupUser github_name with
        | none => { st2 with errors := st2.errors + 1 }
        | some uid =>
          if uid != github_id then
            { st2 with mismatches := st2.mismatches + 1 }
          else
            let st3 := { st2 with addCalls := st2.addCalls ++ [github_name] }
            if env.addUser github_name then
              { st3 with invited := invitedInsert st3.invited github_id }
            else
              { st3 with errors := st3.errors + 1 }
  | TeamAction.keep _handle => { st with noops := st.noops + 1 }
  | TeamAction.remove github_name github_id =>
    let st1 := { st with removals := st.removals + 1 }
    if dry_run then st1
    else
      let st2 := { st1 with lookupCalls := st1.lookupCalls ++ [github_name] }
      match env.lookupUser github_name with
      | none => { st2 with errors := st2.errors + 1 }
      | some uid =>
        if uid != github_id then
          { st2 with mismatches := st2.mismatches + 1 }
        else
          let st3 := { st2 with removeCalls := st2.removeCalls ++ [github_name] }
          if env.removeUser github_name then
            { st3 with invited := invitedDelete st3.invited github_id }
          else
            { st3 with errors := st3.errors + 1 }

/-- Embeds the `sync_team` action loop with its change-count limit check
(op_sync_team.rs lines 197-338): before each action, if a limit is set and
`additions + removals >= limit`, the function early-returns (line 210).
The returned `Bool` is `true` when the loop ran to completion and `false`
on the early return. -/
def runActions (env : DirectoryEnv) (dry_run : Bool) (limit : Option Nat) :
    SyncState → List (GitHubID × TeamAction) → SyncState × Bool
  | st, [] => (st, true)
  | st, (_, action) :: rest =>
    match limit with
    | some l =>
      if l ≤ st.additions + st.removals then (st, false)
      else runActions env dry_run (some l)
        (processAction env dry_run st action) rest
    | none =>
      runActions env dry_run none (processAction env dry_run st action) rest

/-- Initial loop state: the counters start at zero and the ledger holds
the ids loaded from the invited-list file (op_sync_team.rs lines 149-153,
187-196). -/
def initialState (invited0 : List GitHubID) : SyncState :=
  { invited := invited0, noops := 0, additions := 0, removals := 0,
    errors := 0, mismatches := 0, lookupCalls := [], addCalls := [],
    removeCalls := [] }

/-- Outcome of one `sync_team` run over an already-computed diff. -/
structure SyncResult where
  finalState : SyncState
  completed : Bool
  ledgerSaved : Bool
deriving DecidableEq, Repr

/-- Embeds `sync_team` from the diff onward (op_sync_team.rs lines
197-345): run the action loop, then save the ledger (lines 340-342) —
which happens only when an invited-list path was given (`hasLedger`) AND
the loop was not cut short by the early `return Ok(())` of the limit
check, since that return skips lines 340-344. -/
def sync_team (env : DirectoryEnv) (dry_run : Bool) (limit : Option Nat)
    (hasLedger : Bool) (invited0 : List GitHubID)
    (diff : List (GitHubID × TeamAction)) : SyncResult :=
  let r := runActions env dry_run limit (initialState invited0) diff
  { finalState := r.1, completed := r.2, ledgerSaved := r.2 && hasLedger }

/-- Number of mutating directory calls actually issued in a run. -/
def mutatingCalls (st : SyncState) : Nat :=
  st.addCalls.length + st.removeCalls.length

/-- Embeds `MaintainerHistory` (maintainerhistory.rs lines 12-16): the
barrier hash set and the history sources, each a per-line revision-hash
list paired with a handle-to-line map (modelled as an association list),
ordered from most recent to oldest. -/
structure MaintainerHistory where
  barriers : List String
  sources : List (List String × List (Handle × Nat))

/-- Lookup of a handle's line index in one source's position map,
modelling `positions.get(user)` (maintainerhistory.rs line 143). -/
def positionsGet (positions : List (Handle × Nat)) (user : Handle) :
    Option Nat :=
  (positions.find? (fun p => p.1 == user)).map Prod.snd

/-- One iteration of the `commit_for_user` source loop (maintainerhistory.rs
lines 143-155): the answer a single source yields for a handle — the
revision hash at the handle's line, provided the handle is present, the
line index is in range of the hash list, and the hash is not a barrier. -/
def sourceAnswer (barriers : List String)
    (source : List String × List (Handle × Nat)) (user : Handle) :
    Option String :=
  match positionsGet source.2 user with
  | none => none
  | some file_line =>
    match source.1.get? file_line with
    | none => none
    | some current_commit_hash =>
      if barriers.contains current_commit_hash then none
      else some current_commit_hash

/-- The source walk of `commit_for_user`: return the first source's
non-`none` answer, or `none` when every source is exhausted
(maintainerhistory.rs lines 138-162). -/
def commitForUserWalk (barriers : List String) (user : Handle) :
    List (List String × List (Handle × Nat)) → Option String
  | [] => none
  | src :: rest =>
    match sourceAnswer barriers src user with
    | some h => some h
    | none => commitForUserWalk barriers user rest

/-- Embeds `MaintainerHistory::commit_for_user` (maintainerhistory.rs
lines 137-163). -/
def commit_for_user (hist : MaintainerHistory) (user : Handle) :
    Option String :=
  commitForUserWalk hist.barriers user hist.sources

/-- Embeds `Confidence` (maintainerhistory.rs lines 183-190). -/
inductive Confidence
  | Total
  | BadAttribution
  | ChangedHandle
  | MismatchedNameAndID
  | CommitMissing
deriving DecidableEq, Repr

/-- The author of a fetched commit: `commit.author.login` and
`commit.author.id` as consumed by `check_user_hash`. -/
structure CommitAuthor where
  login : String
  id : Nat
deriving DecidableEq, Repr

/-- The fixed override table of `check_user_hash` (maintainerhistory.rs
lines 223-236): `(claimed github_name, actual author login, commit hash)`
triples mapped to `Total`, matched by exact string equality (the Rust
`match` compares the raw strings). -/
def overrideTable : List (String × String × String) :=
  [("rlupton20", "offlinehacker", "5bd136acd4c683b30470b5dfbb6f0b15dcea42a5"),
   ("zx2c4", "Mic92", "6b1087d9b135c94b929fec3d4cf3724b9539c6b5"),
   ("the-kenny", "bjornfor", "6b1087d9b135c94b929fec3d4cf3724b9539c6b5")]

/-- Membership in the override table. -/
def isOverrideTriple (claimed actualLogin hash : String) : Bool :=
  overrideTable.contains (claimed, actualLogin, hash)

/-- Embeds `check_user_hash` (maintainerhistory.rs lines 192-279) as a
function of the fetched commit (`none` models a failed fetch, the Rust
`Err` arm returning `CommitMissing`). The match arms are tried in source
order: full match, the three override triples (which require both the
name and the id to mismatch), name-only match, id-only match, neither.
The Rust function wraps every result in `Some`; the wrapper is dropped
here. -/
def check_user_hash (github_name : GitHubName) (github_id : GitHubID)
    (commit_hash : String) (fetched : Option CommitAuthor) : Confidence :=
  match fetched with
  | none => Confidence.CommitMissing
  | some author =>
    let nameMatch := ghNameEq (GitHubName.mk author.login) github_name
    let idMatch := GitHubID.mk author.id == github_id
    if nameMatch && idMatch then Confidence.Total
    else if !nameMatch && !idMatch &&
        isOverrideTriple github_name.val author.login commit_hash then
      Confidence.Total
    else if nameMatch && !idMatch then Confidence.BadAttribution
    else if !nameMatch && idMatch then Confidence.ChangedHandle
    else Confidence.MismatchedNameAndID

/-- Spec-side definition of the generic decision table of §4.2 of the
spec, without the override table, for the refinement statement of the
override claim. -/
def genericConfidence (github_name : GitHubName) (github_id : GitHubID)
    (author : CommitAuthor) : Confidence :=
  match ghNameEq (GitHubName.mk author.login) github_name,
      GitHubID.mk author.id == github_id with
  | true, true => Confidence.Total
  | true, false => Confidence.BadAttribution
  | false, true => Confidence.ChangedHandle
  | false, false => Confidence.MismatchedNameAndID

/-- Decimal rendering of one id as a line of characters, modelling
`GitHubID`'s `Display`/`to_string()` (maintainers.rs lines 53-57,
invited.rs line 86): the decimal digits most significant first, `"0"` for
zero. -/
def natToLine (n : Nat) : List Char :=
  if n = 0 then ['0']
  else ((Nat.digits 10 n).map Nat.digitChar).reverse

/-- Parsing of one ledger line, modelling `line.parse::<u64>()`
(invited.rs line 58): the line must be nonempty, consist of decimal
digits, and denote a value that fits in a `u64`. (The Rust parser also
accepts a leading `+`, which `save` never emits.) -/
def parseLine (cs : List Char) : Option Nat :=
  if cs ≠ [] ∧ cs.all Char.isDigit then
    let v := cs.foldl (fun n c => n * 10 + (c.toNat - 48)) 0
    if v < 2 ^ 64 then some v else none
  else none

/-- The persisted Invitation Ledger as a set of ids (invited.rs line 10:
`invited: HashSet<GitHubID>`). -/
abbrev Invited := Finset Nat

/-- Embeds `Invited::save` (invited.rs lines 72-99) at the level of the
lines written to the file: the ids are sorted ascending and rendered one
per line (the lines are then joined with a single `\x0a` between them;
that join is the I/O layer). -/
def Invited.save (s : Invited) : List (List Char) :=
  (s.sort (· ≤ ·)).map natToLine

/-- Embeds `Invited::load` (invited.rs lines 30-70) at the level of the
lines read from the file: every line is parsed as an id and inserted into
the set; a line that fails to parse is a fatal error (`none`). -/
def Invited.load (lines : List (List Char)) : Option Invited :=
  (lines.mapM parseLine).map List.toFinset

/-- Count of mutating (`Add`/`Remove`) actions in a diff. -/
def mutatingActionCount (diff : List (GitHubID × TeamAction)) : Nat :=
  diff.countP (fun p =>
    match p.2 with
    | TeamAction.add _ _ _ => true
    | TeamAction.remove _ _ => true
    | TeamAction.keep _ => false)

/-- Example actual-membership snapshot of the end-to-end scenario
(spec §8, op_sync_team.rs test lines 437-442): members alice(1), bob(2). -/
def teamEx : List (GitHubID × GitHubName) :=
  [(⟨1⟩, ⟨"alice"⟩), (⟨2⟩, ⟨"bob"⟩)]

/-- Example desired membership of the end-to-end scenario (op_sync_team.rs
test lines 444-467): bob(2) and charlie(3). -/
def wantedEx : MaintainerList :=
  [(⟨"bob"⟩, ⟨"bob@example.com", some "Bob", some ⟨"bob"⟩, some ⟨2⟩⟩),
   (⟨"charlie"⟩,
    ⟨"charlie@example.com", some "Charlie", some ⟨"charlie"⟩, some ⟨3⟩⟩)]

/-- Desired list with a single record that has a known id (5) but no
GitHub name. -/
def noNameEx : MaintainerList := [(⟨"x"⟩, ⟨"x@example.com", none, none, some ⟨5⟩⟩)]

/-- Example directory environment: no pending invitations, lookups
resolve alice to id 1 and every other name to id 2, and every add/remove
call succeeds. -/
def envEx : DirectoryEnv :=
  { pending := [],
    lookupUser := fun n => if n.val = "alice" then some ⟨1⟩ else some ⟨2⟩,
    addUser := fun _ => true,
    removeUser := fun _ => true }

/-- The same environment with a pending invitation for ALICE (which
matches alice case-insensitively). -/
def envPendingEx : DirectoryEnv := { envEx with pending := [⟨"ALICE"⟩] }

/-- A diff consisting of two `Add` actions. -/
def diffEx : List (GitHubID × TeamAction) :=
  [(⟨1⟩, TeamAction.add ⟨"alice"⟩ ⟨1⟩ ⟨"alice"⟩),
   (⟨2⟩, TeamAction.add ⟨"bob"⟩ ⟨2⟩ ⟨"bob"⟩)]

/-- A history with one barrier hash: the newest source attributes the
handle `u` to the barrier, the older source to `good`. -/
def histEx : MaintainerHistory :=
  { barriers := ["bar"],
    sources := [(["bar"], [(⟨"u"⟩, 0)]), (["good"], [(⟨"u"⟩, 0)])] }

theorem containsKey_iff {α : Type} (l : List (GitHubID × α)) (k : GitHubID) :
    containsKey l k = true ↔ k ∈ l.map Prod.fst := by
  simp [containsKey, List.any_eq_true, List.mem_map]

theorem containsKey_append {α : Type} (l₁ l₂ : List (GitHubID × α))
    (k : GitHubID) :
    containsKey (l₁ ++ l₂) k = (containsKey l₁ k || containsKey l₂ k) := by
  simp [containsKey]

theorem keys_upsert {α : Type} (l : List (GitHubID × α)) (k : GitHubID)
    (v : α) :
    (upsert l k v).map Prod.fst =
      if containsKey l k then l.map Prod.fst else l.map Prod.fst ++ [k] := by
  unfold upsert
  split
  · next hc =>
    simp only [List.map_map]
    congr 1
    funext p
    by_cases h : p.1 = k
    · simp [h]
    · simp [h]
  · simp

theorem containsKey_upsert {α : Type} (l : List (GitHubID × α))
    (k k' : GitHubID) (v : α) :
    containsKey (upsert l k v) k' = (containsKey l k' || k' == k) := by
  rw [Bool.eq_iff_iff, Bool.or_eq_true, beq_iff_eq,
    containsKey_iff, containsKey_iff, keys_upsert]
  split
  · next hc =>
    constructor
    · exact Or.inl
    · rintro (h | rfl)
      · exact h
      · exact (containsKey_iff l k').mp hc
  · simp [List.mem_append]

theorem find?_key_eq_none {α : Type} (l : List (GitHubID × α))
    (k : GitHubID) (h : containsKey l k = false) :
    l.find? (fun p => p.1 == k) = none := by
  rw [List.find?_eq_none]
  intro x hx hpx
  have : containsKey l k = true := by
    simp only [containsKey, List.any_eq_true]
    exact ⟨x, hx, hpx⟩
  simp [this] at h

theorem find?_map_replace_self {α : Type} (t : List (GitHubID × α))
    (k : GitHubID) (v : α) (hc : containsKey t k = true) :
    (t.map (fun p => if p.1 == k then (k, v) else p)).find?
      (fun p => p.1 == k) = some (k, v) := by
  induction t with
  | nil => simp [containsKey] at hc
  | cons p t ih =>
    by_cases hp : p.1 = k
    · simp [hp]
    · have hb : (p.1 == k) = false := by simp [hp]
      have hc' : containsKey t k = true := by
        simpa [containsKey, hb] using hc
      simpa [hb, hp] using ih hc'

theorem find?_map_replace_ne {α : Type} (t : List (GitHubID × α))
    (k k' : GitHubID) (v : α) (h : k' ≠ k) :
    (t.map (fun p => if p.1 == k then (k, v) else p)).find?
      (fun p => p.1 == k') = t.find? (fun p => p.1 == k') := by
  have hk : (k == k') = false := by
    simp only [beq_eq_false_iff_ne]
    exact Ne.symm h
  induction t with
  | nil => rfl
  | cons p t ih =>
    rw [List.map_cons]
    by_cases hp : p.1 = k
    · have h1 : (if p.1 == k then (k, v) else p) = (k, v) := by simp [hp]
      have h2 : ((k, v).1 == k') = false := hk
      have h3 : (p.1 == k') = false := by rw [hp]; exact hk
      rw [h1, List.find?_cons, List.find?_cons, h2, h3]
      show List.find? (fun p => p.1 == k')
          (List.map (fun p => if p.1 == k then (k, v) else p) t) =
        List.find? (fun p => p.1 == k') t
      exact ih
    · have h1 : (if p.1 == k then (k, v) else p) = p := by simp [hp]
      rw [h1]
      by_cases hq : p.1 = k'
      · have h2 : (p.1 == k') = true := by simp [hq]
        rw [List.find?_cons, List.find?_cons, h2]
      · have h2 : (p.1 == k') = false := by simp [hq]
        rw [List.find?_cons, List.find?_cons, h2]
        exact ih

theorem lookupA_upsert_self {α : Type} (l : List (GitHubID × α))
    (k : GitHubID) (v : α) : lookupA (upsert l k v) k = some v := by
  unfold upsert
  split
  · next hc =>
    unfold lookupA
    rw [find?_map_replace_self l k v hc]
    rfl
  · next hc =>
    unfold lookupA
    rw [List.find?_append, find?_key_eq_none l k (by simpa using hc)]
    simp

theorem lookupA_upsert_ne {α : Type} (l : List (GitHubID × α))
    (k k' : GitHubID) (v : α) (h : k' ≠ k) :
    lookupA (upsert l k v) k' = lookupA l k' := by
  unfold upsert
  split
  · unfold lookupA
    rw [find?_map_replace_ne l k k' v h]
  · unfold lookupA
    rw [List.find?_append]
    have hone : List.find? (fun p => p.1 == k') [(k, v)] = none := by
      have hk : (k == k') = false := by
        simp only [beq_eq_false_iff_ne]
        exact Ne.symm h
      simp [hk]
    rw [hone]
    simp

theorem nodup_keys_upsert {α : Type} (l : List (GitHubID × α))
    (k : GitHubID) (v : α) (h : (l.map Prod.fst).Nodup) :
    ((upsert l k v).map Prod.fst).Nodup := by
  rw [keys_upsert]
  split
  · exact h
  · next hc =>
    rw [List.nodup_append]
    refine ⟨h, List.nodup_singleton k, ?_⟩
    intro a ha hb
    simp only [List.mem_singleton] at hb
    subst hb
    exact absurd ((containsKey_iff l a).mpr ha) (by simpa using hc)

theorem lookupA_isSome {α : Type} (l : List (GitHubID × α)) (k : GitHubID)
    (h : containsKey l k = true) : ∃ v, lookupA l k = some v := by
  simp only [containsKey, List.any_eq_true] at h
  obtain ⟨p, hp, hpk⟩ := h
  have h1 : (l.find? (fun p => p.1 == k)).isSome := by
    rw [List.find?_isSome]
    exact ⟨p, hp, hpk⟩
  rw [Option.isSome_iff_exists] at h1
  obtain ⟨q, hq⟩ := h1
  exact ⟨q.2, by simp [lookupA, hq]⟩

theorem diffEntry_matches (tm : List (GitHubID × GitHubName)) (h : Handle)
    (m : Information) (gid : GitHubID) :
    (match diffEntry tm h m with
      | some kv => kv.1 == gid
      | none => false) = desiredContributes tm (h, m) gid := by
  unfold diffEntry desiredContributes
  cases hgid : m.github_id with
  | none => simp
  | some g =>
    by_cases hg : g = gid
    · subst hg
      by_cases hc : containsKey tm g
      · simp [hc]
      · cases hgh : m.github with
        | none => simp [hc, hgh]
        | some gname => simp [hc, hgh]
    · by_cases hc : containsKey tm g
      · simp [hc, hg]
      · cases hgh : m.github with
        | none => simp [hc, hgh, hg]
        | some gname => simp [hc, hgh, hg]

theorem diffEntry_keep (tm : List (GitHubID × GitHubName)) (h : Handle)
    (m : Information) (gid : GitHubID) (v : TeamAction)
    (he : diffEntry tm h m = some (gid, v))
    (hc : containsKey tm gid = true) : v = TeamAction.keep h := by
  unfold diffEntry at he
  split at he
  · exact absurd he (by simp)
  · next g hgid =>
    split at he
    · next hcg =>
      obtain ⟨h1, h2⟩ : g = gid ∧ TeamAction.keep h = v := by simpa using he
      exact h2.symm
    · next hcg =>
      split at he
      · exact absurd he (by simp)
      · next gname hgh =>
        obtain ⟨h1, h2⟩ : g = gid ∧ TeamAction.add gname g h = v := by
          simpa using he
        subst h1
        exact absurd hc (by simp [hcg])

/-- The first fold of `maintainer_team_diff`, named for the proofs. -/
def diffPhase1 (tm : List (GitHubID × GitHubName))
    (acc : List (GitHubID × TeamAction)) (ms : List (Handle × Information)) :
    List (GitHubID × TeamAction) :=
  ms.foldl
    (fun acc hm =>
      match diffEntry tm hm.1 hm.2 with
      | some kv => upsert acc kv.1 kv.2
      | none => acc) acc

/-- The second fold of `maintainer_team_diff`, named for the proofs. -/
def diffPhase2 (acc : List (GitHubID × TeamAction))
    (mem : List (GitHubID × GitHubName)) : List (GitHubID × TeamAction) :=
  mem.foldl
    (fun acc gm =>
      if containsKey acc gm.1 then acc
      else acc ++ [(gm.1, TeamAction.remove gm.2 gm.1)]) acc

theorem maintainer_team_diff_eq_phases (maintainers : MaintainerList)
    (tm : List (GitHubID × GitHubName)) :
    maintainer_team_diff maintainers tm =
      diffPhase2 (diffPhase1 tm [] maintainers) tm := rfl

theorem diffPhase1_containsKey (tm : List (GitHubID × GitHubName))
    (ms : List (Handle × Information)) :
    ∀ (acc : List (GitHubID × TeamAction)) (gid : GitHubID),
    containsKey (diffPhase1 tm acc ms) gid =
      (containsKey acc gid ||
        ms.any (fun hm => desiredContributes tm hm gid)) := by
  induction ms with
  | nil => intro acc gid; simp [diffPhase1]
  | cons hm ms ih =>
    intro acc gid
    have hstep : diffPhase1 tm acc (hm :: ms) =
        diffPhase1 tm
          (match diffEntry tm hm.1 hm.2 with
            | some kv => upsert acc kv.1 kv.2
            | none => acc) ms := rfl
    rw [hstep, ih]
    have hmatch := diffEntry_matches tm hm.1 hm.2 gid
    cases hde : diffEntry tm hm.1 hm.2 with
    | none =>
      rw [hde] at hmatch
      simp only [List.any_cons, ← hmatch]
      simp [Bool.or_assoc, Bool.or_comm, Bool.or_left_comm]
    | some kv =>
      rw [hde] at hmatch
      simp only [List.any_cons, ← hmatch]
      rw [containsKey_upsert]
      have hcomm : (gid == kv.1) = (kv.1 == gid) := by
        rw [Bool.eq_iff_iff, beq_iff_eq, beq_iff_eq]
        exact eq_comm
      rw [hcomm]
      simp [Bool.or_assoc, Bool.or_comm, Bool.or_left_comm]

theorem diffPhase1_nodup (tm : List (GitHubID × GitHubName))
    (ms : List (Handle × Information)) :
    ∀ (acc : List (GitHubID × TeamAction)),
    (acc.map Prod.fst).Nodup → ((diffPhase1 tm acc ms).map Prod.fst).Nodup := by
  induction ms with
  | nil => intro acc h; exact h
  | cons hm ms ih =>
    intro acc h
    have hstep : diffPhase1 tm acc (hm :: ms) =
        diffPhase1 tm
          (match diffEntry tm hm.1 hm.2 with
            | some kv => upsert acc kv.1 kv.2
            | none => acc) ms := rfl
    rw [hstep]
    cases hde : diffEntry tm hm.1 hm.2 with
    | none => exact ih acc h
    | some kv => exact ih _ (nodup_keys_upsert acc kv.1 kv.2 h)

theorem diffPhase1_keep (tm : List (GitHubID × GitHubName)) (gid : GitHubID)
    (hmem : containsKey tm gid = true) (ms : List (Handle × Information)) :
    ∀ (acc : List (GitHubID × TeamAction)),
    (∀ v, lookupA acc gid = some v → ∃ h, v = TeamAction.keep h) →
    ∀ v, lookupA (diffPhase1 tm acc ms) gid = some v →
      ∃ h, v = TeamAction.keep h := by
  induction ms with
  | nil => intro acc hacc; exact hacc
  | cons hm ms ih =>
    intro acc hacc
    have hstep : diffPhase1 tm acc (hm :: ms) =
        diffPhase1 tm
          (match diffEntry tm hm.1 hm.2 with
            | some kv => upsert acc kv.1 kv.2
            | none => acc) ms := rfl
    rw [hstep]
    cases hde : diffEntry tm hm.1 hm.2 with
    | none => exact ih acc hacc
    | some kv =>
      apply ih
      intro v hv
      by_cases hk : kv.1 = gid
      · have hkeep := diffEntry_keep tm hm.1 hm.2 gid kv.2
          (by rw [hde, ← hk]) hmem
        rw [← hk] at hv
        rw [lookupA_upsert_self] at hv
        have hv2 := Option.some.inj hv
        exact ⟨hm.1, by rw [← hv2, hkeep]⟩
      · rw [lookupA_upsert_ne _ _ _ _ (fun he => hk he.symm)] at hv
        exact hacc v hv

theorem diffPhase2_containsKey (mem : List (GitHubID × GitHubName)) :
    ∀ (acc : List (GitHubID × TeamAction)) (gid : GitHubID),
    containsKey (diffPhase2 acc mem) gid =
      (containsKey acc gid || containsKey mem gid) := by
  induction mem with
  | nil => intro acc gid; simp [diffPhase2, containsKey]
  | cons gm mem ih =>
    intro acc gid
    have hstep : diffPhase2 acc (gm :: mem) =
        diffPhase2
          (if containsKey acc gm.1 then acc
            else acc ++ [(gm.1, TeamAction.remove gm.2 gm.1)]) mem := rfl
    rw [hstep]
    have hcons : containsKey (gm :: mem) gid = ((gm.1 == gid) || containsKey mem gid) := by
      simp [containsKey]
    rw [hcons]
    split
    · next hc =>
      rw [ih]
      by_cases hg : gm.1 = gid
      · have : containsKey acc gid = true := by rw [← hg]; exact hc
        simp [this, hg]
      · have : (gm.1 == gid) = false := by simp [hg]
        rw [this, Bool.false_or]
    · rw [ih, containsKey_append]
      have hsing : containsKey [(gm.1, TeamAction.remove gm.2 gm.1)] gid =
          (gm.1 == gid) := by
        simp [containsKey]
      rw [hsing]
      simp [Bool.or_assoc, Bool.or_comm, Bool.or_left_comm]

theorem diffPhase2_nodup (mem : List (GitHubID × GitHubName)) :
    ∀ (acc : List (GitHubID × TeamAction)),
    (acc.map Prod.fst).Nodup → ((diffPhase2 acc mem).map Prod.fst).Nodup := by
  induction mem with
  | nil => intro acc h; exact h
  | cons gm mem ih =>
    intro acc h
    have hstep : diffPhase2 acc (gm :: mem) =
        diffPhase2
          (if containsKey acc gm.1 then acc
            else acc ++ [(gm.1, TeamAction.remove gm.2 gm.1)]) mem := rfl
    rw [hstep]
    split
    · exact ih acc h
    · next hc =>
      apply ih
      rw [List.map_append, List.nodup_append]
      refine ⟨h, by simp, ?_⟩
      intro a ha hb
      simp only [List.map_cons, List.map_nil, List.mem_singleton] at hb
      subst hb
      exact absurd ((containsKey_iff acc gm.1).mpr ha) (by simpa using hc)

theorem diffPhase2_lookupA (mem : List (GitHubID × GitHubName)) :
    ∀ (acc : List (GitHubID × TeamAction)) (gid : GitHubID),
    containsKey acc gid = true →
    lookupA (diffPhase2 acc mem) gid = lookupA acc gid := by
  induction mem with
  | nil => intro acc gid _; rfl
  | cons gm mem ih =>
    intro acc gid hc
    have hstep : diffPhase2 acc (gm :: mem) =
        diffPhase2
          (if containsKey acc gm.1 then acc
            else acc ++ [(gm.1, TeamAction.remove gm.2 gm.1)]) mem := rfl
    rw [hstep]
    split
    · exact ih acc gid hc
    · have hc2 : containsKey (acc ++ [(gm.1, TeamAction.remove gm.2 gm.1)]) gid = true := by
        rw [containsKey_append, hc, Bool.true_or]
      rw [ih _ gid hc2]
      unfold lookupA
      rw [List.find?_append]
      obtain ⟨v, hv⟩ := lookupA_isSome acc gid hc
      have hfind : acc.find? (fun p => p.1 == gid) = some (gid, v) := by
        unfold lookupA at hv
        cases hf : acc.find? (fun p => p.1 == gid) with
        | none => rw [hf] at hv; simp at hv
        | some q =>
          rw [hf] at hv
          have hq2 : q.2 = v := by simpa using hv
          have hq1 := List.find?_some hf
          have : q.1 = gid := by simpa using hq1
          rw [← this, ← hq2]
      rw [hfind]
      rfl

/-- C2, counterexample: the claim "exactly one action per distinct id in
(ids of desired records with a known id) ∪ (actual member ids)" fails on
`maintainer_team_diff`. With desired list `noNameEx` — one record with
known id 5 but no GitHub name — and no actual members, id 5 is in the
claimed union, yet the diff is empty: the `?` on `m.github` in the `Add`
branch drops the record. -/
theorem maintainer_team_diff_completeness_cex :
    maintainer_team_diff noNameEx [] = [] ∧
    noNameEx.any (fun hm => hm.2.github_id == some ⟨5⟩) = true := by
  constructor
  · rfl
  · rfl

/-- C2 (amended): the diff has no duplicate ids, and it contains an
action for id `gid` exactly when `gid` is an actual member id, or `gid`
is the known id of a desired record that additionally is either a current
member (yielding `Keep`) or carries a GitHub name (required for `Add`);
desired records with no known id contribute no action. -/
theorem maintainer_team_diff_keys (maintainers : MaintainerList)
    (teammembers : List (GitHubID × GitHubName)) :
    ((maintainer_team_diff maintainers teammembers).map Prod.fst).Nodup ∧
    ∀ gid, containsKey (maintainer_team_diff maintainers teammembers) gid =
      (maintainers.any (fun hm => desiredContributes teammembers hm gid) ||
        containsKey teammembers gid) := by
  constructor
  · rw [maintainer_team_diff_eq_phases]
    exact diffPhase2_nodup _ _ (diffPhase1_nodup _ _ [] (by simp))
  · intro gid
    rw [maintainer_team_diff_eq_phases, diffPhase2_containsKey,
      diffPhase1_containsKey]
    simp [containsKey]

/-- C3: if `gid` is the known id of some desired record and is also an
actual member id, then the diff's action for `gid` is `Keep` (never `Add`
and never `Remove`). -/
theorem maintainer_team_diff_keep_precedence (maintainers : MaintainerList)
    (teammembers : List (GitHubID × GitHubName)) (gid : GitHubID)
    (hdes : maintainers.any (fun hm => hm.2.github_id == some gid) = true)
    (hact : containsKey teammembers gid = true) :
    ∃ handle, lookupA (maintainer_team_diff maintainers teammembers) gid =
      some (TeamAction.keep handle) := by
  rw [maintainer_team_diff_eq_phases]
  have hcontrib : maintainers.any
      (fun hm => desiredContributes teammembers hm gid) = true := by
    rw [List.any_eq_true] at hdes ⊢
    obtain ⟨hm, hmem, hid⟩ := hdes
    refine ⟨hm, hmem, ?_⟩
    simp only [desiredContributes, hid, hact, Bool.true_and, Bool.true_or]
  have hc1 : containsKey (diffPhase1 teammembers [] maintainers) gid = true := by
    rw [diffPhase1_containsKey]
    simp [containsKey, hcontrib]
  rw [diffPhase2_lookupA teammembers _ gid hc1]
  obtain ⟨v, hv⟩ := lookupA_isSome _ gid hc1
  obtain ⟨h, hh⟩ := diffPhase1_keep teammembers gid hact maintainers []
    (by intro w hw; simp [lookupA] at hw) v hv
  exact ⟨h, by rw [hv, hh]⟩

/-- Witness for C3 at the end-to-end scenario: id 2 (bob) is desired and
an actual member, and the computed diff keeps bob. -/
theorem maintainer_team_diff_keep_precedence_witness :
    ∃ handle, lookupA (maintainer_team_diff wantedEx teamEx) ⟨2⟩ =
      some (TeamAction.keep handle) :=
  maintainer_team_diff_keep_precedence wantedEx teamEx ⟨2⟩
    (by decide) (by decide)

/-- C5: the confidence scorer's decision table. With name-match the
case-insensitive equality of claimed name vs. author login and id-match
exact id equality, the result is `Total` / `BadAttribution` /
`ChangedHandle` / `MismatchedNameAndID` for (both / name only / id only /
neither, absent an override-table entry); in particular the claimed
identity ("alice",1) against authors ("alice",1), ("alice",2), ("bob",1),
("bob",2) scores Total, BadAttribution, ChangedHandle,
MismatchedNameAndID respectively. -/
theorem check_user_hash_table (github_name : GitHubName)
    (github_id : GitHubID) (commit_hash : String) (author : CommitAuthor) :
    (ghNameEq (GitHubName.mk author.login) github_name = true →
      GitHubID.mk author.id = github_id →
      check_user_hash github_name github_id commit_hash (some author) =
        Confidence.Total) ∧
    (ghNameEq (GitHubName.mk author.login) github_name = true →
      GitHubID.mk author.id ≠ github_id →
      check_user_hash github_name github_id commit_hash (some author) =
        Confidence.BadAttribution) ∧
    (ghNameEq (GitHubName.mk author.login) github_name = false →
      GitHubID.mk author.id = github_id →
      check_user_hash github_name github_id commit_hash (some author) =
        Confidence.ChangedHandle) ∧
    (ghNameEq (GitHubName.mk author.login) github_name = false →
      GitHubID.mk author.id ≠ github_id →
      isOverrideTriple github_name.val author.login commit_hash = false →
      check_user_hash github_name github_id commit_hash (some author) =
        Confidence.MismatchedNameAndID) ∧
    check_user_hash ⟨"alice"⟩ ⟨1⟩ "h" (some ⟨"alice", 1⟩) =
      Confidence.Total ∧
    check_user_hash ⟨"alice"⟩ ⟨1⟩ "h" (some ⟨"alice", 2⟩) =
      Confidence.BadAttribution ∧
    check_user_hash ⟨"alice"⟩ ⟨1⟩ "h" (some ⟨"bob", 1⟩) =
      Confidence.ChangedHandle ∧
    check_user_hash ⟨"alice"⟩ ⟨1⟩ "h" (some ⟨"bob", 2⟩) =
      Confidence.MismatchedNameAndID := by
  refine ⟨?_, ?_, ?_, ?_, by decide, by decide, by decide, by decide⟩
  · intro h1 h2
    simp [check_user_hash, h1, h2]
  · intro h1 h2
    have h2' : (GitHubID.mk author.id == github_id) = false := by simp [h2]
    simp [check_user_hash, h1, h2']
  · intro h1 h2
    simp [check_user_hash, h1, h2]
  · intro h1 h2 h3
    have h2' : (GitHubID.mk author.id == github_id) = false := by simp [h2]
    simp [check_user_hash, h1, h2', h3]

/-- Witness for C5's conditional cases: a case-insensitive name match
with matching ids scores `Total`. -/
theorem check_user_hash_table_witness :
    check_user_hash ⟨"Alice"⟩ ⟨7⟩ "h" (some ⟨"ALICE", 7⟩) =
      Confidence.Total :=
  (check_user_hash_table ⟨"Alice"⟩ ⟨7⟩ "h" ⟨"ALICE", 7⟩).1
    (by decide) (by decide)

/-- C6: the override table is consulted before the generic table and only
rescues inputs whose name and id both mismatch: on any input whose triple
is not in the table the result equals the generic decision table's, and
on a table triple with both mismatches the result is `Total` where the
generic table would say `MismatchedNameAndID`. -/
theorem check_user_hash_override (github_name : GitHubName)
    (github_id : GitHubID) (commit_hash : String) (author : CommitAuthor) :
    (isOverrideTriple github_name.val author.login commit_hash = false →
      check_user_hash github_name github_id commit_hash (some author) =
        genericConfidence github_name github_id author) ∧
    (isOverrideTriple github_name.val author.login commit_hash = true →
      ghNameEq (GitHubName.mk author.login) github_name = false →
      (GitHubID.mk author.id == github_id) = false →
      check_user_hash github_name github_id commit_hash (some author) =
        Confidence.Total ∧
      genericConfidence github_name github_id author =
        Confidence.MismatchedNameAndID) := by
  constructor
  · intro hov
    by_cases hn : ghNameEq (GitHubName.mk author.login) github_name
    · by_cases hi : (GitHubID.mk author.id == github_id) = true
      · simp [check_user_hash, genericConfidence, hn, hi]
      · simp only [Bool.not_eq_true] at hi
        simp [check_user_hash, genericConfidence, hn, hi]
    · simp only [Bool.not_eq_true] at hn
      by_cases hi : (GitHubID.mk author.id == github_id) = true
      · simp [check_user_hash, genericConfidence, hn, hi]
      · simp only [Bool.not_eq_true] at hi
        simp [check_user_hash, genericConfidence, hn, hi, hov]
  · intro hov hn hi
    constructor
    · simp [check_user_hash, hn, hi, hov]
    · simp [genericConfidence, hn, hi]

/-- Witness for C6 at the first override entry: claimed rlupton20 with a
mismatching id against author offlinehacker in the listed revision scores
`Total`, where the generic table says `MismatchedNameAndID`. -/
theorem check_user_hash_override_witness :
    check_user_hash ⟨"rlupton20"⟩ ⟨1⟩
        "5bd136acd4c683b30470b5dfbb6f0b15dcea42a5"
        (some ⟨"offlinehacker", 2⟩) = Confidence.Total ∧
    genericConfidence ⟨"rlupton20"⟩ ⟨1⟩ ⟨"offlinehacker", 2⟩ =
      Confidence.MismatchedNameAndID :=
  (check_user_hash_override ⟨"rlupton20"⟩ ⟨1⟩
      "5bd136acd4c683b30470b5dfbb6f0b15dcea42a5" ⟨"offlinehacker", 2⟩).2
    (by decide) (by decide) (by decide)

theorem sourceAnswer_not_barrier (barriers : List String)
    (src : List String × List (Handle × Nat)) (user : Handle) (h : String)
    (ha : sourceAnswer barriers src user = some h) :
    barriers.contains h = false := by
  unfold sourceAnswer at ha
  split at ha
  · exact absurd ha (by simp)
  · split at ha
    · exact absurd ha (by simp)
    · split at ha
      · exact absurd ha (by simp)
      · next hbar =>
        have := Option.some.inj ha
        rw [← this]
        simpa using hbar

theorem commitForUserWalk_eq_none (barriers : List String) (user : Handle) :
    ∀ srcs, commitForUserWalk barriers user srcs = none ↔
      ∀ src ∈ srcs, sourceAnswer barriers src user = none := by
  intro srcs
  induction srcs with
  | nil => simp [commitForUserWalk]
  | cons s rest ih =>
    unfold commitForUserWalk
    cases ha : sourceAnswer barriers s user with
    | some h =>
      simp only [List.mem_cons]
      constructor
      · intro hw
        exact absurd hw (by simp)
      · intro hall
        exact absurd (hall s (Or.inl rfl)) (by simp [ha])
    | none =>
      rw [ih]
      constructor
      · intro hall src hsrc
        rcases List.mem_cons.mp hsrc with h1 | h2
        · rw [h1]; exact ha
        · exact hall src h2
      · intro hall src hsrc
        exact hall src (List.mem_cons_self s rest |> fun _ => List.mem_cons.mpr (Or.inr hsrc))

theorem commitForUserWalk_eq_some (barriers : List String) (user : Handle) :
    ∀ srcs hash, commitForUserWalk barriers user srcs = some hash ↔
      ∃ i src, srcs.get? i = some src ∧
        sourceAnswer barriers src user = some hash ∧
        ∀ j src', j < i → srcs.get? j = some src' →
          sourceAnswer barriers src' user = none := by
  intro srcs
  induction srcs with
  | nil =>
    intro hash
    simp [commitForUserWalk]
  | cons s rest ih =>
    intro hash
    unfold commitForUserWalk
    cases ha : sourceAnswer barriers s user with
    | some h =>
      constructor
      · intro hw
        have hh : h = hash := Option.some.inj hw
        refine ⟨0, s, rfl, by rw [ha, hh], ?_⟩
        intro j src' hj _
        omega
      · rintro ⟨i, src, hget, hans, hprev⟩
        cases i with
        | zero =>
          have hs : src = s := by symm; simpa using hget
          rw [hs, ha] at hans
          exact hans
        | succ i' =>
          have := hprev 0 s (Nat.succ_pos i') rfl
          rw [ha] at this
          exact absurd this (by simp)
    | none =>
      rw [ih hash]
      constructor
      · rintro ⟨i, src, hget, hans, hprev⟩
        refine ⟨i + 1, src, by simpa using hget, hans, ?_⟩
        intro j src' hj hget'
        cases j with
        | zero =>
          have hs : src' = s := by symm; simpa using hget'
          rw [hs]; exact ha
        | succ j' =>
          exact hprev j' src' (by omega) (by simpa using hget')
      · rintro ⟨i, src, hget, hans, hprev⟩
        cases i with
        | zero =>
          have hs : src = s := by symm; simpa using hget
          rw [hs, ha] at hans
          exact absurd hans (by simp)
        | succ i' =>
          refine ⟨i', src, by simpa using hget, hans, ?_⟩
          intro j src' hj hget'
          exact hprev (j + 1) src' (by omega) (by simpa using hget')

/-- C7: `commit_for_user` walks the history sources from most recent to
oldest; it returns `some hash` exactly when some source yields `hash` —
the handle is present, its line index is within the source's hash list,
and the hash there is not a barrier — and every more recent source yields
nothing (absent handle, out-of-range line, or a barrier hash); it returns
`none` exactly when every source yields nothing; and a returned hash is
never a barrier. -/
theorem commit_for_user_spec (hist : MaintainerHistory) (user : Handle) :
    (commit_for_user hist user = none ↔
      ∀ src ∈ hist.sources, sourceAnswer hist.barriers src user = none) ∧
    (∀ hash, commit_for_user hist user = some hash ↔
      ∃ i src, hist.sources.get? i = some src ∧
        sourceAnswer hist.barriers src user = some hash ∧
        ∀ j src', j < i → hist.sources.get? j = some src' →
          sourceAnswer hist.barriers src' user = none) ∧
    (∀ hash, commit_for_user hist user = some hash →
      hist.barriers.contains hash = false) := by
  refine ⟨commitForUserWalk_eq_none hist.barriers user hist.sources, ?_, ?_⟩
  · intro hash
    exact commitForUserWalk_eq_some hist.barriers user hist.sources hash
  · intro hash hw
    obtain ⟨i, src, _, hans, _⟩ :=
      (commitForUserWalk_eq_some hist.barriers user hist.sources hash).mp hw
    exact sourceAnswer_not_barrier hist.barriers src user hash hans

/-- Witness for C7 at `histEx`: the newest source attributes `u` to the
barrier hash, so the resolver returns the older source's hash. -/
theorem commit_for_user_spec_witness :
    commit_for_user histEx ⟨"u"⟩ = some "good" := by
  apply ((commit_for_user_spec histEx ⟨"u"⟩).2.1 "good").mpr
  refine ⟨1, (["good"], [(⟨"u"⟩, 0)]), rfl, by decide, ?_⟩
  intro j src' hj hget
  have hj0 : j = 0 := by omega
  subst hj0
  have hs : src' = (["bar"], [(⟨"u"⟩, 0)]) := by symm; simpa [histEx] using hget
  rw [hs]
  decide

theorem processAction_step (env : DirectoryEnv) (dry : Bool)
    (st : SyncState) (a : TeamAction) :
    (processAction env dry st a).additions + (processAction env dry st a).removals ≤
      st.additions + st.removals + 1 ∧
    mutatingCalls (processAction env dry st a) + (st.additions + st.removals) ≤
      mutatingCalls st +
        ((processAction env dry st a).additions + (processAction env dry st a).removals) := by
  cases a <;> simp only [processAction] <;> repeat' split
  all_goals simp [mutatingCalls] <;> omega

theorem processAction_dry (env : DirectoryEnv) (st : SyncState)
    (a : TeamAction) :
    (processAction env true st a).invited = st.invited ∧
    (processAction env true st a).lookupCalls = st.lookupCalls ∧
    (processAction env true st a).addCalls = st.addCalls ∧
    (processAction env true st a).removeCalls = st.removeCalls := by
  cases a <;> simp only [processAction] <;> repeat' split
  all_goals simp_all

theorem runActions_le_limit (env : DirectoryEnv) (dry : Bool) (N : Nat) :
    ∀ (diff : List (GitHubID × TeamAction)) (st : SyncState),
    st.additions + st.removals ≤ N →
    (runActions env dry (some N) st diff).1.additions +
      (runActions env dry (some N) st diff).1.removals ≤ N := by
  intro diff
  induction diff with
  | nil => intro st h; exact h
  | cons p rest ih =>
    intro st h
    simp only [runActions]
    split
    · exact h
    · next hlt =>
      apply ih
      have hstep := (processAction_step env dry st p.2).1
      omega

theorem runActions_calls_le (env : DirectoryEnv) (dry : Bool)
    (limit : Option Nat) :
    ∀ (diff : List (GitHubID × TeamAction)) (st : SyncState),
    mutatingCalls st ≤ st.additions + st.removals →
    mutatingCalls (runActions env dry limit st diff).1 ≤
      (runActions env dry limit st diff).1.additions +
        (runActions env dry limit st diff).1.removals := by
  intro diff
  induction diff with
  | nil => intro st h; exact h
  | cons p rest ih =>
    intro st h
    cases limit with
    | some l =>
      simp only [runActions]
      split
      · exact h
      · apply ih
        have hstep := (processAction_step env dry st p.2).2
        omega
    | none =>
      simp only [runActions]
      apply ih
      have hstep := (processAction_step env dry st p.2).2
      omega

theorem runActions_halt_counters (env : DirectoryEnv) (dry : Bool) (N : Nat) :
    ∀ (diff : List (GitHubID × TeamAction)) (st : SyncState),
    st.additions + st.removals ≤ N →
    (runActions env dry (some N) st diff).2 = false →
    (runActions env dry (some N) st diff).1.additions +
      (runActions env dry (some N) st diff).1.removals = N := by
  intro diff
  induction diff with
  | nil =>
    intro st _ hc
    exact absurd hc (by simp [runActions])
  | cons p rest ih =>
    intro st h hc
    simp only [runActions] at hc ⊢
    split
    · next hge =>
      show st.additions + st.removals = N
      omega
    · next hlt =>
      rw [if_neg hlt] at hc
      apply ih _ _ hc
      have hstep := (processAction_step env dry st p.2).1
      simp only [Nat.not_le] at hlt
      omega

theorem runActions_dry (env : DirectoryEnv) (limit : Option Nat) :
    ∀ (diff : List (GitHubID × TeamAction)) (st : SyncState),
    (runActions env true limit st diff).1.invited = st.invited ∧
    (runActions env true limit st diff).1.lookupCalls = st.lookupCalls ∧
    (runActions env true limit st diff).1.addCalls = st.addCalls ∧
    (runActions env true limit st diff).1.removeCalls = st.removeCalls := by
  intro diff
  induction diff with
  | nil => intro st; exact ⟨rfl, rfl, rfl, rfl⟩
  | cons p rest ih =>
    intro st
    cases limit with
    | some l =>
      simp only [runActions]
      split
      · exact ⟨rfl, rfl, rfl, rfl⟩
      · have h1 := ih (processAction env true st p.2)
        have h2 := processAction_dry env st p.2
        exact ⟨h1.1.trans h2.1, h1.2.1.trans h2.2.1,
          h1.2.2.1.trans h2.2.2.1, h1.2.2.2.trans h2.2.2.2⟩
    | none =>
      simp only [runActions]
      have h1 := ih (processAction env true st p.2)
      have h2 := processAction_dry env st p.2
      exact ⟨h1.1.trans h2.1, h1.2.1.trans h2.2.1,
        h1.2.2.1.trans h2.2.2.1, h1.2.2.2.trans h2.2.2.2⟩

/-- C1, counterexample: with limit 1 and a diff of 2 Add actions
(M = 2 > N = 1), the run performs one mutating call and returns cleanly,
but the Invitation Ledger is NOT persisted: the limit check's
`return Ok(())` (op_sync_team.rs line 210) skips the save at lines
340-342, so `ledgerSaved` is `false` although an invited-list path was
given. The claim asserts the ledger is still persisted. -/
theorem sync_team_limit_cex :
    mutatingActionCount diffEx = 2 ∧
    mutatingCalls (sync_team envEx false (some 1) true [] diffEx).finalState = 1 ∧
    (sync_team envEx false (some 1) true [] diffEx).finalState.invited = [⟨1⟩] ∧
    (sync_team envEx false (some 1) true [] diffEx).ledgerSaved = false := by
  refine ⟨by decide, by decide, by decide, by decide⟩

/-- C1 (amended): with a configured limit N the applier issues at most N
mutating directory calls and always returns without error; when the limit
cuts the loop short, the counted mutations equal N exactly and the ledger
is NOT saved (the early return skips the save); the ledger is saved (when
a ledger path is configured) only when the loop processes every action. -/
theorem sync_team_limit (env : DirectoryEnv) (dry_run : Bool) (N : Nat)
    (hasLedger : Bool) (invited0 : List GitHubID)
    (diff : List (GitHubID × TeamAction)) :
    mutatingCalls (sync_team env dry_run (some N) hasLedger invited0 diff).finalState ≤ N ∧
    ((sync_team env dry_run (some N) hasLedger invited0 diff).completed = false →
      (sync_team env dry_run (some N) hasLedger invited0 diff).finalState.additions +
        (sync_team env dry_run (some N) hasLedger invited0 diff).finalState.removals = N ∧
      (sync_team env dry_run (some N) hasLedger invited0 diff).ledgerSaved = false) ∧
    ((sync_team env dry_run (some N) hasLedger invited0 diff).completed = true →
      (sync_team env dry_run (some N) hasLedger invited0 diff).ledgerSaved = hasLedger) := by
  have hrw : sync_team env dry_run (some N) hasLedger invited0 diff =
      { finalState := (runActions env dry_run (some N) (initialState invited0) diff).1,
        completed := (runActions env dry_run (some N) (initialState invited0) diff).2,
        ledgerSaved := (runActions env dry_run (some N) (initialState invited0) diff).2 && hasLedger } := rfl
  rw [hrw]
  dsimp only
  refine ⟨?_, ?_, ?_⟩
  · have h1 := runActions_le_limit env dry_run N diff (initialState invited0)
      (by simp [initialState])
    have h2 := runActions_calls_le env dry_run (some N) diff (initialState invited0)
      (by simp [initialState, mutatingCalls])
    omega
  · intro hc
    refine ⟨runActions_halt_counters env dry_run N diff (initialState invited0)
      (by simp [initialState]) hc, ?_⟩
    rw [hc]
    simp
  · intro hc
    rw [hc]
    simp

/-- Witness for C1's conditional parts: the concrete limited run halts
early with exactly one counted mutation and an unsaved ledger. -/
theorem sync_team_limit_witness :
    (sync_team envEx false (some 1) true [] diffEx).finalState.additions +
      (sync_team envEx false (some 1) true [] diffEx).finalState.removals = 1 ∧
    (sync_team envEx false (some 1) true [] diffEx).ledgerSaved = false :=
  (sync_team_limit envEx false 1 true [] diffEx).2.1 (by decide)

/-- C4, counterexample: in dry-run mode with one Add action that passes
the skip checks, the action is counted (`additions = 1`) but NO directory
user-lookup is issued: the re-verification lookup sits inside
`if do_it_live` (op_sync_team.rs line 230), so dry-run skips it. The
claim asserts dry-run still performs the user-lookup re-verification. -/
theorem sync_team_dry_run_cex :
    (sync_team envEx true none true [] diffEx).finalState.additions = 2 ∧
    (sync_team envEx true none true [] diffEx).finalState.lookupCalls = [] := by
  refine ⟨by decide, by decide⟩

/-- C4 (amended): in dry-run mode `sync_team` still performs the
pending-invitation and ledger skip checks and counts/logs every action,
but issues no directory calls at all — neither the user-lookup
re-verification nor add/remove — and leaves the in-memory Invitation
Ledger set unchanged. -/
theorem sync_team_dry_run (env : DirectoryEnv) (limit : Option Nat)
    (hasLedger : Bool) (invited0 : List GitHubID)
    (diff : List (GitHubID × TeamAction)) :
    (sync_team env true limit hasLedger invited0 diff).finalState.lookupCalls = [] ∧
    (sync_team env true limit hasLedger invited0 diff).finalState.addCalls = [] ∧
    (sync_team env true limit hasLedger invited0 diff).finalState.removeCalls = [] ∧
    (sync_team env true limit hasLedger invited0 diff).finalState.invited = invited0 := by
  have h := runActions_dry env limit diff (initialState invited0)
  exact ⟨h.2.1, h.2.2.1, h.2.2.2, h.1⟩

/-- C8: the live processing of an `Add(name, id, handle)` action. With a
pending invitation for the name, or the id already in the ledger, the
action is a counted no-op that mutates nothing else. Otherwise the name
is looked up against the directory: a failed lookup counts an error and
mutates nothing; a looked-up id different from the claimed id increments
the mismatch gauge, issues no add call and leaves the ledger unchanged; a
matching id issues the add call and, on success, inserts the id into the
ledger, while on failure only the error counter grows. -/
theorem sync_team_add_action (env : DirectoryEnv) (st : SyncState)
    (github_name : GitHubName) (github_id : GitHubID) (handle : Handle) :
    (env.pending.any (fun p => ghNameEq p github_name) = true →
      processAction env false st (TeamAction.add github_name github_id handle) =
        { st with noops := st.noops + 1 }) ∧
    (env.pending.any (fun p => ghNameEq p github_name) = false →
      invitedContains st.invited github_id = true →
      processAction env false st (TeamAction.add github_name github_id handle) =
        { st with noops := st.noops + 1 }) ∧
    (env.pending.any (fun p => ghNameEq p github_name) = false →
      invitedContains st.invited github_id = false →
      (env.lookupUser github_name = none →
        processAction env false st (TeamAction.add github_name github_id handle) =
          { st with additions := st.additions + 1,
                    lookupCalls := st.lookupCalls ++ [github_name],
                    errors := st.errors + 1 }) ∧
      (∀ uid, env.lookupUser github_name = some uid → uid ≠ github_id →
        processAction env false st (TeamAction.add github_name github_id handle) =
          { st with additions := st.additions + 1,
                    lookupCalls := st.lookupCalls ++ [github_name],
                    mismatches := st.mismatches + 1 }) ∧
      (env.lookupUser github_name = some github_id →
        (env.addUser github_name = true →
          processAction env false st (TeamAction.add github_name github_id handle) =
            { st with additions := st.additions + 1,
                      lookupCalls := st.lookupCalls ++ [github_name],
                      addCalls := st.addCalls ++ [github_name],
                      invited := invitedInsert st.invited github_id }) ∧
        (env.addUser github_name = false →
          processAction env false st (TeamAction.add github_name github_id handle) =
            { st with additions := st.additions + 1,
                      lookupCalls := st.lookupCalls ++ [github_name],
                      addCalls := st.addCalls ++ [github_name],
                      errors := st.errors + 1 }))) := by
  refine ⟨?_, ?_, ?_⟩
  · intro h1
    simp [processAction, h1]
  · intro h1 h2
    simp [processAction, h1, h2]
  · intro h1 h2
    refine ⟨?_, ?_, ?_⟩
    · intro hlk
      simp [processAction, h1, h2, hlk]
    · intro uid hlk hne
      have hbne : (uid != github_id) = true := by simp [hne]
      simp [processAction, h1, h2, hlk, hbne]
    · intro hlk
      have hbne : (github_id != github_id) = false := by simp
      constructor
      · intro hadd
        simp [processAction, h1, h2, hlk, hbne, hadd]
      · intro hadd
        simp [processAction, h1, h2, hlk, hbne, hadd]

/-- Witness for C8 on the successful-add path: alice is looked up, the
ids match, the add call succeeds and id 1 enters the ledger. -/
theorem sync_team_add_action_witness :
    processAction envEx false (initialState [])
        (TeamAction.add ⟨"alice"⟩ ⟨1⟩ ⟨"alice"⟩) =
      { invited := [⟨1⟩], noops := 0, additions := 1, removals := 0,
        errors := 0, mismatches := 0, lookupCalls := [⟨"alice"⟩],
        addCalls := [⟨"alice"⟩], removeCalls := [] } :=
  (((sync_team_add_action envEx (initialState []) ⟨"alice"⟩ ⟨1⟩
    ⟨"alice"⟩).2.2 (by decide) (by decide)).2.2 (by decide)).1 (by decide)

/-- C10, counterexample: an `Add` action that is skipped as a no-op
because of a pending invitation is reached by the loop but does NOT
increment the `additions` counter — the increment (op_sync_team.rs line
227) sits in the `else` branch after the pending/ledger checks. The claim
says the counter is incremented for every Add action reached. -/
theorem sync_team_counters_cex :
    (sync_team envPendingEx false none true []
      [(⟨1⟩, TeamAction.add ⟨"alice"⟩ ⟨1⟩ ⟨"alice"⟩)]).completed = true ∧
    (sync_team envPendingEx false none true []
      [(⟨1⟩, TeamAction.add ⟨"alice"⟩ ⟨1⟩ ⟨"alice"⟩)]).finalState.noops = 1 ∧
    (sync_team envPendingEx false none true []
      [(⟨1⟩, TeamAction.add ⟨"alice"⟩ ⟨1⟩ ⟨"alice"⟩)]).finalState.additions = 0 := by
  refine ⟨by decide, by decide, by decide⟩

/-- C10 (amended): `additions` is incremented for every Add action that
passes the pending-invitation and already-invited skip checks, and
`removals` for every Remove action reached, in both cases regardless of
dry-run mode and regardless of how the verification lookup or the remote
add/remove call turns out; consequently in dry-run mode, where no
directory mutation is ever issued, a run with limit N still halts once N
such actions have been counted. -/
theorem sync_team_counters :
    (∀ (env : DirectoryEnv) (dry : Bool) (st : SyncState)
        (n : GitHubName) (id : GitHubID) (h : Handle),
      env.pending.any (fun p => ghNameEq p n) = false →
      invitedContains st.invited id = false →
      (processAction env dry st (TeamAction.add n id h)).additions =
        st.additions + 1) ∧
    (∀ (env : DirectoryEnv) (dry : Bool) (st : SyncState)
        (n : GitHubName) (id : GitHubID),
      (processAction env dry st (TeamAction.remove n id)).removals =
        st.removals + 1) ∧
    (∀ (env : DirectoryEnv) (N : Nat) (hasLedger : Bool)
        (invited0 : List GitHubID) (diff : List (GitHubID × TeamAction)),
      (sync_team env true (some N) hasLedger invited0 diff).completed = false →
      (sync_team env true (some N) hasLedger invited0 diff).finalState.additions +
        (sync_team env true (some N) hasLedger invited0 diff).finalState.removals = N ∧
      mutatingCalls (sync_team env true (some N) hasLedger invited0 diff).finalState = 0) := by
  refine ⟨?_, ?_, ?_⟩
  · intro env dry st n id h h1 h2
    simp only [processAction, h1, h2]
    repeat' split
    all_goals simp_all
  · intro env dry st n id
    simp only [processAction]
    repeat' split
    all_goals simp_all
  · intro env N hasLedger invited0 diff hc
    have hrw : sync_team env true (some N) hasLedger invited0 diff =
        { finalState := (runActions env true (some N) (initialState invited0) diff).1,
          completed := (runActions env true (some N) (initialState invited0) diff).2,
          ledgerSaved := (runActions env true (some N) (initialState invited0) diff).2 && hasLedger } := rfl
    rw [hrw] at hc ⊢
    dsimp only at hc ⊢
    refine ⟨runActions_halt_counters env true N diff (initialState invited0)
      (by simp [initialState]) hc, ?_⟩
    have hd := runActions_dry env (some N) diff (initialState invited0)
    unfold mutatingCalls
    rw [hd.2.2.1, hd.2.2.2]
    rfl

/-- Witness for C10's conditional parts: a non-skipped dry-run Add is
counted. -/
theorem sync_team_counters_witness :
    (processAction envEx true (initialState [])
      (TeamAction.add ⟨"alice"⟩ ⟨1⟩ ⟨"alice"⟩)).additions =
      (initialState []).additions + 1 :=
  sync_team_counters.1 envEx true (initialState []) ⟨"alice"⟩ ⟨1⟩ ⟨"alice"⟩
    (by decide) (by decide)

theorem digitChar_isDigit (d : Nat) (h : d < 10) :
    (Nat.digitChar d).isDigit = true := by
  interval_cases d <;> decide

theorem digitChar_toNat (d : Nat) (h : d < 10) :
    (Nat.digitChar d).toNat = 48 + d := by
  interval_cases d <;> decide

theorem foldl_digitChar :
    ∀ (ds : List Nat) (acc : Nat), (∀ d ∈ ds, d < 10) →
    (ds.map Nat.digitChar).foldl (fun n c => n * 10 + (c.toNat - 48)) acc =
      ds.foldl (fun n d => n * 10 + d) acc := by
  intro ds
  induction ds with
  | nil => intro acc _; rfl
  | cons d t ih =>
    intro acc h
    have hd : d < 10 := h d (by simp)
    simp only [List.map_cons, List.foldl_cons]
    rw [digitChar_toNat d hd]
    have hsub : 48 + d - 48 = d := by omega
    rw [hsub]
    exact ih _ (fun x hx => h x (by simp [hx]))

theorem foldl_decimal (ds : List Nat) : ∀ acc : Nat,
    ds.reverse.foldl (fun n d => n * 10 + d) acc =
      acc * 10 ^ ds.length + Nat.ofDigits 10 ds := by
  induction ds with
  | nil => intro acc; simp
  | cons d t ih =>
    intro acc
    rw [List.reverse_cons, List.foldl_append, ih acc]
    simp only [List.foldl_cons, List.foldl_nil, List.length_cons,
      Nat.ofDigits_cons]
    rw [pow_succ]
    ring

theorem parseLine_natToLine (n : Nat) (h : n < 2 ^ 64) :
    parseLine (natToLine n) = some n := by
  by_cases h0 : n = 0
  · subst h0
    have hz : natToLine 0 = ['0'] := rfl
    rw [hz]
    unfold parseLine
    rw [if_pos (by decide)]
    simp only
    rw [if_pos (by decide : ((['0'].foldl (fun n c => n * 10 + (c.toNat - 48)) 0) < 2 ^ 64))]
    rfl
  · have hds : ∀ d ∈ Nat.digits 10 n, d < 10 :=
      fun d hd => Nat.digits_lt_base (by norm_num) hd
    have hne : Nat.digits 10 n ≠ [] := Nat.digits_ne_nil_iff_ne_zero.mpr h0
    have hline : natToLine n = ((Nat.digits 10 n).map Nat.digitChar).reverse := by
      unfold natToLine
      rw [if_neg h0]
    have hrev : ((Nat.digits 10 n).map Nat.digitChar).reverse =
        ((Nat.digits 10 n).reverse.map Nat.digitChar) := by
      rw [List.map_reverse]
    have hval : (((Nat.digits 10 n).map Nat.digitChar).reverse).foldl
        (fun n c => n * 10 + (c.toNat - 48)) 0 = n := by
      rw [hrev, foldl_digitChar _ 0 (fun d hd => hds d (List.mem_reverse.mp hd)),
        foldl_decimal]
      simp [Nat.ofDigits_digits]
    have hcond : natToLine n ≠ [] ∧ (natToLine n).all Char.isDigit := by
      constructor
      · rw [hline]
        simp [hne]
      · rw [hline, List.all_eq_true]
        intro c hc
        rw [List.mem_reverse, List.mem_map] at hc
        obtain ⟨d, hd, hdc⟩ := hc
        rw [← hdc]
        exact digitChar_isDigit d (hds d hd)
    unfold parseLine
    rw [if_pos hcond]
    simp only
    rw [hline, hval, if_pos h]

theorem mapM_parseLine (l : List Nat) (h : ∀ x ∈ l, x < 2 ^ 64) :
    (l.map natToLine).mapM parseLine = some l := by
  induction l with
  | nil => rfl
  | cons x t ih =>
    have hx := parseLine_natToLine x (h x (by simp))
    have ht := ih (fun y hy => h y (by simp [hy]))
    simp only [List.map_cons, List.mapM_cons, hx, ht]
    rfl

/-- C9: for every ledger set whose ids fit in a `u64`, `save` followed by
`load` reproduces an equal set, and `save` writes exactly the ids of the
set, one per line, sorted in ascending order. -/
theorem invited_save_load_round_trip (s : Finset Nat)
    (h : ∀ x ∈ s, x < 2 ^ 64) :
    Invited.load (Invited.save s) = some s ∧
    ∃ ids : List Nat, List.Sorted (· ≤ ·) ids ∧ ids.toFinset = s ∧
      Invited.save s = ids.map natToLine := by
  have hsort : (s.sort (· ≤ ·)).toFinset = s := Finset.sort_toFinset (· ≤ ·) s
  have hmem : ∀ x ∈ s.sort (· ≤ ·), x < 2 ^ 64 :=
    fun x hx => h x ((Finset.mem_sort (· ≤ ·)).mp hx)
  constructor
  · unfold Invited.load Invited.save
    rw [mapM_parseLine _ hmem]
    simp [hsort]
  · exact ⟨s.sort (· ≤ ·), Finset.sort_sorted (· ≤ ·) s, hsort, rfl⟩

/-- Witness for C9 at the empty ledger and at the test ledger
{0,3,6,...,18} (invited.rs test lines 122-139). -/
theorem invited_save_load_round_trip_witness :
    Invited.load (Invited.save (∅ : Finset Nat)) = some ∅ ∧
    Invited.load (Invited.save ({0, 3, 6, 9, 12, 15, 18} : Finset Nat)) =
      some {0, 3, 6, 9, 12, 15, 18} :=
  ⟨(invited_save_load_round_trip ∅ (by decide)).1,
   (invited_save_load_round_trip {0, 3, 6, 9, 12, 15, 18} (by decide)).1⟩

end Rfc39
